import Mathlib

/-!
Verification of `src/sse_to_ws_proxy.py` (an SSE-to-WebSocket proxy).

The Python source is shallowly embedded: text is `List Char`, bytes are
`List Nat` (each `< 256`), Python values produced by `json.loads` are the
inductive `PyValue`, and the stateful chunk loop of `_handle_sse_stream`
is explicit recursion over the list of received chunks.
-/

set_option maxRecDepth 10000

/-- Characters of a string literal, used to write concrete `List Char` inputs. -/
def strChars (s : String) : List Char := s.data

/-- Python `str.isspace` / `str.strip()` whitespace set (Unicode whitespace as
recognized by CPython's `Py_UNICODE_ISSPACE`). -/
def isPySpace (c : Char) : Bool :=
  c = ' ' || c = '\t' || c = '\n' || c = '\r' || c = '\x0b' || c = '\x0c' ||
  (0x1c ≤ c.toNat && c.toNat ≤ 0x1f) || c.toNat = 0x85 || c.toNat = 0xa0 ||
  c.toNat = 0x1680 || (0x2000 ≤ c.toNat && c.toNat ≤ 0x200a) ||
  c.toNat = 0x2028 || c.toNat = 0x2029 || c.toNat = 0x202f ||
  c.toNat = 0x205f || c.toNat = 0x3000

/-- Python `str.strip()`: drop leading and trailing whitespace. -/
def pyStrip (l : List Char) : List Char :=
  (((l.dropWhile isPySpace).reverse).dropWhile isPySpace).reverse

/-- Python `str.split("\n")`: split on every newline; `"".split("\n") == [""]`. -/
def pyLines : List Char → List (List Char)
  | [] => [[]]
  | c :: t =>
    if c = '\n' then [] :: pyLines t
    else
      match pyLines t with
      | l :: ls => (c :: l) :: ls
      | [] => [[c]]

/-- Python `buffer.split("\n\n", 1)` guarded by `"\n\n" in buffer`:
`some (before, after)` at the first occurrence of `"\n\n"`, else `none`. -/
def splitFirst : List Char → Option (List Char × List Char)
  | [] => Option.none
  | [_] => Option.none
  | c1 :: c2 :: t =>
    if c1 = '\n' ∧ c2 = '\n' then some ([], t)
    else
      match splitFirst (c2 :: t) with
      | some (a, b) => some (c1 :: a, b)
      | Option.none => Option.none

/-- The `while "\n\n" in buffer` extraction loop of `_handle_sse_stream`,
with an explicit iteration bound (each iteration removes the two delimiter
characters, so `buf.length` iterations always suffice). Returns the list of
extracted blocks and the remaining buffer. -/
def drainF : Nat → List Char → List (List Char) × List Char
  | 0, buf => ([], buf)
  | f + 1, buf =>
    match splitFirst buf with
    | Option.none => ([], buf)
    | some (a, r) =>
      let p := drainF f r
      (a :: p.1, p.2)

/-- Extract all complete (blank-line-delimited) blocks from the buffer. -/
def drain (buf : List Char) : List (List Char) × List Char :=
  drainF buf.length buf

theorem splitFirst_decomp :
    ∀ {l a r : List Char}, splitFirst l = some (a, r) → l = a ++ '\n' :: '\n' :: r := by
  intro l
  induction l with
  | nil => intro a r h; simp [splitFirst] at h
  | cons c1 t ih =>
    intro a r h
    cases t with
    | nil => simp [splitFirst] at h
    | cons c2 t2 =>
      rw [splitFirst] at h
      split at h
      · rename_i hnn
        obtain ⟨h1, h2⟩ := hnn
        simp at h
        obtain ⟨ha, hr⟩ := h
        subst ha; subst hr; subst h1; subst h2; rfl
      · rename_i hnn
        cases hsp : splitFirst (c2 :: t2) with
        | none => rw [hsp] at h; simp at h
        | some p =>
          rw [hsp] at h
          obtain ⟨a', r'⟩ := p
          simp at h
          obtain ⟨ha, hr⟩ := h
          subst ha; subst hr
          have := ih hsp
          rw [this]
          rfl

theorem splitFirst_length {l a r : List Char} (h : splitFirst l = some (a, r)) :
    r.length + 2 ≤ l.length := by
  have := splitFirst_decomp h
  subst this
  simp

theorem splitFirst_append {b a r : List Char} (c : List Char)
    (h : splitFirst b = some (a, r)) : splitFirst (b ++ c) = some (a, r ++ c) := by
  induction b generalizing a with
  | nil => simp [splitFirst] at h
  | cons c1 t ih =>
    cases t with
    | nil => simp [splitFirst] at h
    | cons c2 t2 =>
      rw [splitFirst] at h
      rw [List.cons_append, List.cons_append, splitFirst]
      split at h
      · rename_i hnn
        simp at h
        obtain ⟨ha, hr⟩ := h
        subst ha; subst hr
        rw [if_pos hnn]
      · rename_i hnn
        rw [if_neg hnn]
        cases hsp : splitFirst (c2 :: t2) with
        | none => rw [hsp] at h; simp at h
        | some p =>
          rw [hsp] at h
          obtain ⟨a', r'⟩ := p
          simp at h
          obtain ⟨ha, hr⟩ := h
          subst ha; subst hr
          have := ih hsp
          rw [List.cons_append] at this
          rw [this]

theorem drainF_eq_of_le :
    ∀ (f : Nat) (g : Nat) (buf : List Char), buf.length ≤ f → buf.length ≤ g →
      drainF f buf = drainF g buf := by
  intro f
  induction f with
  | zero =>
    intro g buf hf _
    have : buf = [] := List.length_eq_zero.mp (Nat.le_zero.mp hf)
    subst this
    cases g with
    | zero => rfl
    | succ h => simp [drainF, splitFirst]
  | succ f ih =>
    intro g buf hf hg
    cases g with
    | zero =>
      have : buf = [] := List.length_eq_zero.mp (Nat.le_zero.mp hg)
      subst this
      simp [drainF, splitFirst]
    | succ g =>
      rw [drainF, drainF]
      cases hsp : splitFirst buf with
      | none => rfl
      | some p =>
        obtain ⟨a, r⟩ := p
        have hlen := splitFirst_length hsp
        have h1 : r.length ≤ f := by omega
        have h2 : r.length ≤ g := by omega
        simp only
        rw [ih g r h1 h2]

/-- Unfolding equation for `drain`. -/
theorem drain_eq (buf : List Char) :
    drain buf =
      match splitFirst buf with
      | Option.none => ([], buf)
      | some (a, r) =>
        let p := drain r
        (a :: p.1, p.2) := by
  unfold drain
  cases hb : buf.length with
  | zero =>
    have : buf = [] := List.length_eq_zero.mp hb
    subst this
    simp [drainF, splitFirst]
  | succ n =>
    rw [drainF]
    cases hsp : splitFirst buf with
    | none => rfl
    | some p =>
      obtain ⟨a, r⟩ := p
      have hlen := splitFirst_length hsp
      simp only
      rw [drainF_eq_of_le n r.length r (by omega) (le_refl _)]

theorem drain_none {buf : List Char} (h : splitFirst buf = Option.none) :
    drain buf = ([], buf) := by
  rw [drain_eq, h]

theorem drain_some {buf a r : List Char} (h : splitFirst buf = some (a, r)) :
    drain buf = (a :: (drain r).1, (drain r).2) := by
  rw [drain_eq, h]

/-- The buffer left by `drain` contains no `"\n\n"` delimiter. -/
theorem splitFirst_drain_snd (buf : List Char) :
    splitFirst (drain buf).2 = Option.none := by
  generalize hn : buf.length = n
  induction n using Nat.strong_induction_on generalizing buf with
  | _ n ih =>
    cases hsp : splitFirst buf with
    | none => rw [drain_none hsp]; exact hsp
    | some p =>
      obtain ⟨a, r⟩ := p
      rw [drain_some hsp]
      have hlen := splitFirst_length hsp
      exact ih r.length (by omega) r rfl

/-- Draining is compatible with appending: draining `b ++ c` first extracts
everything extractable from `b`, then continues on the remainder plus `c`. -/
theorem drain_append (b c : List Char) :
    drain (b ++ c) =
      ((drain b).1 ++ (drain ((drain b).2 ++ c)).1, (drain ((drain b).2 ++ c)).2) := by
  generalize hn : b.length = n
  induction n using Nat.strong_induction_on generalizing b with
  | _ n ih =>
    cases hsp : splitFirst b with
    | none =>
      rw [drain_none hsp]
      simp
    | some p =>
      obtain ⟨a, r⟩ := p
      have hlen := splitFirst_length hsp
      rw [drain_some hsp, splitFirst_append c hsp |> drain_some]
      have := ih r.length (by omega) r rfl
      simp only
      rw [this]
      simp


/-- Is `b` a UTF-8 continuation byte (`0x80..0xBF`)? -/
def isCont (b : Nat) : Bool := 0x80 ≤ b && b ≤ 0xBF

/-- Valid range for the first continuation byte of a 3-byte sequence with
lead byte `b` (UTF-8 forbids overlong encodings and surrogates). -/
def cont1Ok3 (b b1 : Nat) : Bool :=
  if b = 0xE0 then 0xA0 ≤ b1 && b1 ≤ 0xBF
  else if b = 0xED then 0x80 ≤ b1 && b1 ≤ 0x9F
  else isCont b1

/-- Valid range for the first continuation byte of a 4-byte sequence with
lead byte `b`. -/
def cont1Ok4 (b b1 : Nat) : Bool :=
  if b = 0xF0 then 0x90 ≤ b1 && b1 ≤ 0xBF
  else if b = 0xF4 then 0x80 ≤ b1 && b1 ≤ 0x8F
  else isCont b1

/-- One step of CPython's UTF-8 decoder: at a nonempty byte list, either
decode one character (`some c`) or report an ill-formed subsequence
(`none`), together with the number of bytes consumed (the character's
bytes, resp. the maximal valid subpart of the ill-formed sequence). -/
def utf8Step : List Nat → Option Char × Nat
  | [] => (Option.none, 1)
  | b :: t =>
    if b < 0x80 then (some (Char.ofNat b), 1)
    else if 0xC2 ≤ b ∧ b ≤ 0xDF then
      match t with
      | [] => (Option.none, 1)
      | b1 :: _ =>
        if isCont b1 then (some (Char.ofNat ((b - 0xC0) * 0x40 + (b1 - 0x80))), 2)
        else (Option.none, 1)
    else if 0xE0 ≤ b ∧ b ≤ 0xEF then
      match t with
      | [] => (Option.none, 1)
      | b1 :: t1 =>
        if cont1Ok3 b b1 then
          match t1 with
          | [] => (Option.none, 2)
          | b2 :: _ =>
            if isCont b2 then
              (some (Char.ofNat ((b - 0xE0) * 0x1000 + (b1 - 0x80) * 0x40 + (b2 - 0x80))), 3)
            else (Option.none, 2)
        else (Option.none, 1)
    else if 0xF0 ≤ b ∧ b ≤ 0xF4 then
      match t with
      | [] => (Option.none, 1)
      | b1 :: t1 =>
        if cont1Ok4 b b1 then
          match t1 with
          | [] => (Option.none, 2)
          | b2 :: t2 =>
            if isCont b2 then
              match t2 with
              | [] => (Option.none, 3)
              | b3 :: _ =>
                if isCont b3 then
                  (some (Char.ofNat ((b - 0xF0) * 0x40000 + (b1 - 0x80) * 0x1000 +
                    (b2 - 0x80) * 0x40 + (b3 - 0x80))), 4)
                else (Option.none, 3)
            else (Option.none, 2)
        else (Option.none, 1)
    else (Option.none, 1)

theorem utf8Step_pos (l : List Nat) : 1 ≤ (utf8Step l).2 := by
  match l with
  | [] => simp [utf8Step]
  | b :: t =>
    rw [utf8Step.eq_def]
    repeat' split
    all_goals simp

/-- UTF-8 decoding driver: decode characters one `utf8Step` at a time,
emitting `onErr` for every ill-formed subsequence. The fuel bounds the
number of steps; since every step consumes at least one byte, `l.length`
always suffices. -/
def utf8DecodeF (onErr : List Char) : Nat → List Nat → List Char
  | 0, _ => []
  | _ + 1, [] => []
  | f + 1, b :: t =>
    match utf8Step (b :: t) with
    | (some c, k) => c :: utf8DecodeF onErr f ((b :: t).drop k)
    | (Option.none, k) => onErr ++ utf8DecodeF onErr f ((b :: t).drop k)

/-- Python `chunk.decode("utf-8", errors="ignore")`: ill-formed subsequences
are dropped; never fails. -/
def decodeUtf8Ignore (l : List Nat) : List Char := utf8DecodeF [] l.length l

/-- Modelled from the spec: the spec says invalid byte sequences are
"replaced rather than failing" (Python `errors="replace"`), which emits
U+FFFD for each maximal ill-formed subpart instead of dropping it. -/
def specReplaceDecode (l : List Nat) : List Char := utf8DecodeF ['�'] l.length l

theorem utf8DecodeF_eq_of_le (onErr : List Char) :
    ∀ (f g : Nat) (l : List Nat), l.length ≤ f → l.length ≤ g →
      utf8DecodeF onErr f l = utf8DecodeF onErr g l := by
  intro f
  induction f with
  | zero =>
    intro g l hf _
    have : l = [] := List.length_eq_zero.mp (Nat.le_zero.mp hf)
    subst this
    cases g <;> rfl
  | succ f ih =>
    intro g l hf hg
    cases g with
    | zero =>
      have : l = [] := List.length_eq_zero.mp (Nat.le_zero.mp hg)
      subst this
      rfl
    | succ g =>
      cases l with
      | nil => rfl
      | cons b t =>
        rw [utf8DecodeF, utf8DecodeF]
        have hpos := utf8Step_pos (b :: t)
        cases hstep : utf8Step (b :: t) with
        | mk oc k =>
          rw [hstep] at hpos
          simp only at hpos
          have hlf : ((b :: t).drop k).length ≤ f := by
            simp only [List.length_drop, List.length_cons] at *
            omega
          have hlg : ((b :: t).drop k).length ≤ g := by
            simp only [List.length_drop, List.length_cons] at *
            omega
          cases oc with
          | none => simp only; rw [ih g _ hlf hlg]
          | some c => simp only; rw [ih g _ hlf hlg]

/-- Unfolding equation for `decodeUtf8Ignore` at a nonempty byte list. -/
theorem decodeUtf8Ignore_cons (b : Nat) (t : List Nat) :
    decodeUtf8Ignore (b :: t) =
      match utf8Step (b :: t) with
      | (some c, k) => c :: decodeUtf8Ignore ((b :: t).drop k)
      | (Option.none, k) => decodeUtf8Ignore ((b :: t).drop k) := by
  unfold decodeUtf8Ignore
  rw [show (b :: t).length = t.length + 1 from rfl, utf8DecodeF]
  have hpos := utf8Step_pos (b :: t)
  cases hstep : utf8Step (b :: t) with
  | mk oc k =>
    rw [hstep] at hpos
    simp only at hpos
    have hl : ((b :: t).drop k).length ≤ t.length := by
      simp only [List.length_drop, List.length_cons]
      omega
    cases oc with
    | none =>
      simp only [List.nil_append]
      rw [utf8DecodeF_eq_of_le [] t.length ((b :: t).drop k).length _ hl (le_refl _)]
    | some c =>
      simp only
      rw [utf8DecodeF_eq_of_le [] t.length ((b :: t).drop k).length _ hl (le_refl _)]

/-- UTF-8 encoding of one character. -/
def utf8EncodeChar (c : Char) : List Nat :=
  let n := c.toNat
  if n < 0x80 then [n]
  else if n < 0x800 then [0xC0 + n / 0x40, 0x80 + n % 0x40]
  else if n < 0x10000 then
    [0xE0 + n / 0x1000, 0x80 + (n / 0x40) % 0x40, 0x80 + n % 0x40]
  else
    [0xF0 + n / 0x40000, 0x80 + (n / 0x1000) % 0x40, 0x80 + (n / 0x40) % 0x40,
      0x80 + n % 0x40]

/-- UTF-8 encoding of a character list. -/
def utf8Encode (s : List Char) : List Nat := s.flatMap utf8EncodeChar

theorem utf8Encode_append (a b : List Char) :
    utf8Encode (a ++ b) = utf8Encode a ++ utf8Encode b := by
  simp [utf8Encode]

/-- Decoding a validly encoded character consumes exactly its bytes. -/
theorem decode_encodeChar (c : Char) (rest : List Nat) :
    decodeUtf8Ignore (utf8EncodeChar c ++ rest) = c :: decodeUtf8Ignore rest := by
  have hval : c.toNat < 0xd800 ∨ (0xdfff < c.toNat ∧ c.toNat < 0x110000) := by
    have := c.valid
    rcases this with h | h
    · left
      exact_mod_cast h
    · right
      obtain ⟨h1, h2⟩ := h
      constructor <;> exact_mod_cast ‹_›
  set n := c.toNat with hn
  have hofn : Char.ofNat n = c := Char.ofNat_toNat c
  by_cases h1 : n < 0x80
  · have henc : utf8EncodeChar c = [n] := by rw [utf8EncodeChar]; simp only [← hn, if_pos h1]
    rw [henc]
    simp only [List.cons_append, List.nil_append]
    rw [decodeUtf8Ignore_cons]
    have hstep : utf8Step (n :: rest) = (some (Char.ofNat n), 1) := by
      simp only [utf8Step]
      rw [if_pos h1]
    rw [hstep]
    simp only [List.drop_succ_cons, List.drop_zero, hofn]
  · by_cases h2 : n < 0x800
    · have henc : utf8EncodeChar c = [0xC0 + n / 0x40, 0x80 + n % 0x40] := by
        rw [utf8EncodeChar]; simp only [← hn, if_neg h1, if_pos h2]
      have hq := Nat.div_add_mod n 0x40
      have hr : n % 0x40 < 0x40 := Nat.mod_lt _ (by omega)
      rw [henc]
      simp only [List.cons_append, List.nil_append]
      rw [decodeUtf8Ignore_cons]
      have hstep : utf8Step ((0xC0 + n / 0x40) :: (0x80 + n % 0x40) :: rest) =
          (some (Char.ofNat ((0xC0 + n / 0x40 - 0xC0) * 0x40 + (0x80 + n % 0x40 - 0x80))), 2) := by
        simp only [utf8Step]
        rw [if_neg (by omega), if_pos (by constructor <;> omega),
          if_pos (by simp only [isCont, Bool.and_eq_true, decide_eq_true_eq]; omega)]
      rw [hstep]
      have harith : (0xC0 + n / 0x40 - 0xC0) * 0x40 + (0x80 + n % 0x40 - 0x80) = n := by omega
      rw [harith, hofn]
      simp only [List.drop_succ_cons, List.drop_zero]
    · by_cases h3 : n < 0x10000
      · have henc : utf8EncodeChar c =
            [0xE0 + n / 0x1000, 0x80 + (n / 0x40) % 0x40, 0x80 + n % 0x40] := by
          rw [utf8EncodeChar]; simp only [← hn, if_neg h1, if_neg h2, if_pos h3]
        have hq0 := Nat.div_add_mod n 0x40
        have hr0 : n % 0x40 < 0x40 := Nat.mod_lt _ (by omega)
        have hq1 := Nat.div_add_mod (n / 0x40) 0x40
        have hr1 : (n / 0x40) % 0x40 < 0x40 := Nat.mod_lt _ (by omega)
        have hdd : n / 0x40 / 0x40 = n / 0x1000 := by rw [Nat.div_div_eq_div_mul]
        rw [hdd] at hq1
        have hq1v : n / 0x1000 < 0x10 := by omega
        have hsur : n < 0xd800 ∨ 0xdfff < n := by omega
        rw [henc]
        simp only [List.cons_append, List.nil_append]
        rw [decodeUtf8Ignore_cons]
        have hc1 : cont1Ok3 (0xE0 + n / 0x1000) (0x80 + (n / 0x40) % 0x40) = true := by
          rw [cont1Ok3]
          by_cases he0 : n / 0x1000 = 0
          · rw [if_pos (by omega)]
            simp only [Bool.and_eq_true, decide_eq_true_eq]
            omega
          · rw [if_neg (by omega)]
            by_cases hed : n / 0x1000 = 0xD
            · rw [if_pos (by omega)]
              simp only [Bool.and_eq_true, decide_eq_true_eq]
              omega
            · rw [if_neg (by omega)]
              simp only [isCont, Bool.and_eq_true, decide_eq_true_eq]
              omega
        have hstep : utf8Step ((0xE0 + n / 0x1000) :: (0x80 + (n / 0x40) % 0x40) ::
            (0x80 + n % 0x40) :: rest) =
            (some (Char.ofNat ((0xE0 + n / 0x1000 - 0xE0) * 0x1000 +
              (0x80 + (n / 0x40) % 0x40 - 0x80) * 0x40 + (0x80 + n % 0x40 - 0x80))), 3) := by
          simp only [utf8Step]
          rw [if_neg (by omega), if_neg (by omega), if_pos (by constructor <;> omega),
            if_pos hc1,
            if_pos (by simp only [isCont, Bool.and_eq_true, decide_eq_true_eq]; omega)]
        rw [hstep]
        have harith : (0xE0 + n / 0x1000 - 0xE0) * 0x1000 +
            (0x80 + (n / 0x40) % 0x40 - 0x80) * 0x40 + (0x80 + n % 0x40 - 0x80) = n := by
          omega
        rw [harith, hofn]
        simp only [List.drop_succ_cons, List.drop_zero]
      · have hbig : n < 0x110000 := by omega
        have henc : utf8EncodeChar c =
            [0xF0 + n / 0x40000, 0x80 + (n / 0x1000) % 0x40, 0x80 + (n / 0x40) % 0x40,
              0x80 + n % 0x40] := by
          rw [utf8EncodeChar]; simp only [← hn, if_neg h1, if_neg h2, if_neg h3]
        have hq0 := Nat.div_add_mod n 0x40
        have hr0 : n % 0x40 < 0x40 := Nat.mod_lt _ (by omega)
        have hq1 := Nat.div_add_mod (n / 0x40) 0x40
        have hr1 : (n / 0x40) % 0x40 < 0x40 := Nat.mod_lt _ (by omega)
        have hdd1 : n / 0x40 / 0x40 = n / 0x1000 := by rw [Nat.div_div_eq_div_mul]
        rw [hdd1] at hq1
        have hq2 := Nat.div_add_mod (n / 0x1000) 0x40
        have hr2 : (n / 0x1000) % 0x40 < 0x40 := Nat.mod_lt _ (by omega)
        have hdd2 : n / 0x1000 / 0x40 = n / 0x40000 := by rw [Nat.div_div_eq_div_mul]
        rw [hdd2] at hq2
        have hq2v : n / 0x40000 ≤ 4 := by omega
        rw [henc]
        simp only [List.cons_append, List.nil_append]
        rw [decodeUtf8Ignore_cons]
        have hc1 : cont1Ok4 (0xF0 + n / 0x40000) (0x80 + (n / 0x1000) % 0x40) = true := by
          rw [cont1Ok4]
          by_cases hf0 : n / 0x40000 = 0
          · rw [if_pos (by omega)]
            simp only [Bool.and_eq_true, decide_eq_true_eq]
            omega
          · by_cases hf4 : n / 0x40000 = 4
            · rw [if_neg (by omega), if_pos (by omega)]
              simp only [Bool.and_eq_true, decide_eq_true_eq]
              omega
            · rw [if_neg (by omega), if_neg (by omega)]
              simp only [isCont, Bool.and_eq_true, decide_eq_true_eq]
              omega
        have hstep : utf8Step ((0xF0 + n / 0x40000) :: (0x80 + (n / 0x1000) % 0x40) ::
            (0x80 + (n / 0x40) % 0x40) :: (0x80 + n % 0x40) :: rest) =
            (some (Char.ofNat ((0xF0 + n / 0x40000 - 0xF0) * 0x40000 +
              (0x80 + (n / 0x1000) % 0x40 - 0x80) * 0x1000 +
              (0x80 + (n / 0x40) % 0x40 - 0x80) * 0x40 + (0x80 + n % 0x40 - 0x80))), 4) := by
          simp only [utf8Step]
          rw [if_neg (by omega), if_neg (by omega), if_neg (by omega),
            if_pos (by constructor <;> omega), if_pos hc1,
            if_pos (by simp only [isCont, Bool.and_eq_true, decide_eq_true_eq]; omega),
            if_pos (by simp only [isCont, Bool.and_eq_true, decide_eq_true_eq]; omega)]
        rw [hstep]
        have harith : (0xF0 + n / 0x40000 - 0xF0) * 0x40000 +
            (0x80 + (n / 0x1000) % 0x40 - 0x80) * 0x1000 +
            (0x80 + (n / 0x40) % 0x40 - 0x80) * 0x40 + (0x80 + n % 0x40 - 0x80) = n := by
          omega
        rw [harith, hofn]
        simp only [List.drop_succ_cons, List.drop_zero]

/-- `errors="ignore"` decoding is a left inverse of UTF-8 encoding. -/
theorem decode_encode (s : List Char) : decodeUtf8Ignore (utf8Encode s) = s := by
  induction s with
  | nil => rfl
  | cons c t ih =>
    have : utf8Encode (c :: t) = utf8EncodeChar c ++ utf8Encode t := by
      simp [utf8Encode]
    rw [this, decode_encodeChar, ih]

/-- The Python values `json.loads` can return (plus the raw-string fallback).
A Python `dict` is an insertion-ordered association list; a later duplicate
key overwrites the value in place. Floats are kept symbolically as
sign/digits/decimal-exponent since the program never computes with them. -/
inductive PyValue where
  | str (s : List Char)
  | int (n : Int)
  | float (neg : Bool) (mantissa : Nat) (exp10 : Int)
  | bool (b : Bool)
  | none
  | nan
  | inf (neg : Bool)
  | list (xs : List PyValue)
  | dict (xs : List (List Char × PyValue))

/-- Python `isinstance(payload, dict)`. -/
def PyValue.isDict : PyValue → Bool
  | .dict _ => true
  | _ => false

/-- Python `isinstance(payload, str)`. -/
def PyValue.isStr : PyValue → Bool
  | .str _ => true
  | _ => false

/-- Python `dict` assignment `d[k] = v`: overwrite in place if the key
exists, else append. -/
def dictInsert : List (List Char × PyValue) → List Char → PyValue →
    List (List Char × PyValue)
  | [], k, v => [(k, v)]
  | (k', v') :: t, k, v =>
    if k' = k then (k', v) :: t else (k', v') :: dictInsert t k v

/-- JSON inter-token whitespace (Python `json`: space, tab, newline, CR). -/
def isJsonWs (c : Char) : Bool := c = ' ' || c = '\t' || c = '\n' || c = '\r'

/-- Skip JSON whitespace. -/
def skipWs (l : List Char) : List Char := l.dropWhile isJsonWs

/-- Value of a hex digit, if any. -/
def hexVal (c : Char) : Option Nat :=
  if '0' ≤ c ∧ c ≤ '9' then some (c.toNat - 48)
  else if 'a' ≤ c ∧ c ≤ 'f' then some (c.toNat - 87)
  else if 'A' ≤ c ∧ c ≤ 'F' then some (c.toNat - 55)
  else Option.none

/-- JSON string scanner, positioned after the opening quote. Returns the
decoded content and the input after the closing quote. Control characters
are rejected (Python strict mode); `\uXXXX` escapes are decoded, combining
surrogate pairs. (Lean `Char` carries Unicode scalar values only, so a lone
surrogate escape is rejected rather than producing a surrogate, the one
spot where this model is narrower than CPython.) -/
def parseJString : List Char → Option (List Char × List Char)
  | [] => Option.none
  | '"' :: t => some ([], t)
  | '\\' :: e :: t =>
    match e with
    | '"' => (parseJString t).map (fun p => ('"' :: p.1, p.2))
    | '\\' => (parseJString t).map (fun p => ('\\' :: p.1, p.2))
    | '/' => (parseJString t).map (fun p => ('/' :: p.1, p.2))
    | 'b' => (parseJString t).map (fun p => ('\x08' :: p.1, p.2))
    | 'f' => (parseJString t).map (fun p => ('\x0c' :: p.1, p.2))
    | 'n' => (parseJString t).map (fun p => ('\n' :: p.1, p.2))
    | 'r' => (parseJString t).map (fun p => ('\r' :: p.1, p.2))
    | 't' => (parseJString t).map (fun p => ('\t' :: p.1, p.2))
    | 'u' =>
      match t with
      | h1 :: h2 :: h3 :: h4 :: t4 =>
        match hexVal h1, hexVal h2, hexVal h3, hexVal h4 with
        | some a, some b, some c, some d =>
          let n := ((a * 16 + b) * 16 + c) * 16 + d
          if n < 0xD800 ∨ 0xDFFF < n then
            (parseJString t4).map (fun p => (Char.ofNat n :: p.1, p.2))
          else if n ≤ 0xDBFF then
            match t4 with
            | '\\' :: 'u' :: g1 :: g2 :: g3 :: g4 :: t8 =>
              match hexVal g1, hexVal g2, hexVal g3, hexVal g4 with
              | some a2, some b2, some c2, some d2 =>
                let m := ((a2 * 16 + b2) * 16 + c2) * 16 + d2
                if 0xDC00 ≤ m ∧ m ≤ 0xDFFF then
                  (parseJString t8).map
                    (fun p =>
                      (Char.ofNat (0x10000 + (n - 0xD800) * 0x400 + (m - 0xDC00)) :: p.1,
                        p.2))
                else Option.none
              | _, _, _, _ => Option.none
            | _ => Option.none
          else Option.none
        | _, _, _, _ => Option.none
      | _ => Option.none
    | _ => Option.none
  | c :: t =>
    if c.toNat < 0x20 then Option.none
    else (parseJString t).map (fun p => (c :: p.1, p.2))

/-- Numeric value of a digit run. -/
def digitsVal (l : List Char) : Nat :=
  l.foldl (fun acc c => acc * 10 + (c.toNat - 48)) 0

/-- Split a leading digit run. -/
def takeDigits (l : List Char) : List Char × List Char :=
  (l.takeWhile Char.isDigit, l.dropWhile Char.isDigit)

/-- Python `json` number grammar `-?(0|[1-9]\d*)(\.\d+)?([eE][-+]?\d+)?`:
an integer when neither fraction nor exponent is present, else a float. -/
def parseNumber (l : List Char) : Option (PyValue × List Char) :=
  let sgn := match l with
    | '-' :: t => (true, t)
    | _ => (false, l)
  let neg := sgn.1
  let l1 := sgn.2
  match takeDigits l1 with
  | ([], _) => Option.none
  | (ds, r1) =>
    if 1 < ds.length ∧ ds.head? = some '0' then Option.none
    else
      let fracRes : Option (List Char × List Char) :=
        match r1 with
        | '.' :: t =>
          match takeDigits t with
          | ([], _) => Option.none
          | (fs, rr) => some (fs, rr)
        | _ => some ([], r1)
      match fracRes with
      | Option.none => Option.none
      | some (fs, r2) =>
        let expRes : Option (Option (Bool × List Char) × List Char) :=
          match r2 with
          | e :: t =>
            if e = 'e' ∨ e = 'E' then
              let esgn := match t with
                | '+' :: t2 => (false, t2)
                | '-' :: t2 => (true, t2)
                | _ => (false, t)
              match takeDigits esgn.2 with
              | ([], _) => Option.none
              | (es, r3) => some (some (esgn.1, es), r3)
            else some (Option.none, r2)
          | [] => some (Option.none, r2)
        match expRes with
        | Option.none => Option.none
        | some (Option.none, r3) =>
          if fs = [] then some (PyValue.int (if neg then -(digitsVal ds : Int) else (digitsVal ds : Int)), r3)
          else some (PyValue.float neg (digitsVal (ds ++ fs)) (-(fs.length : Int)), r3)
        | some (some (eneg, es), r3) =>
          let e10 : Int := (if eneg then -(digitsVal es : Int) else (digitsVal es : Int)) - (fs.length : Int)
          some (PyValue.float neg (digitsVal (ds ++ fs)) e10, r3)

/-- Fold raw object pairs into a Python dict (later duplicates overwrite). -/
def pairsToDict (ps : List (List Char × PyValue)) : List (List Char × PyValue) :=
  ps.foldl (fun d p => dictInsert d p.1 p.2) []

mutual

/-- Python `json` scanner: parse one JSON value at the head of the input
(whitespace already skipped), in CPython's dispatch order: string, object,
array, `null`/`true`/`false`, number, then `NaN`/`Infinity`/`-Infinity`.
The fuel bounds recursion depth; since every nesting level consumes input,
`2 * length + 2` always suffices. -/
def parseJValue : Nat → List Char → Option (PyValue × List Char)
  | 0, _ => Option.none
  | f + 1, l =>
    match l with
    | '"' :: t =>
      match parseJString t with
      | some (s, r) => some (PyValue.str s, r)
      | Option.none => Option.none
    | '{' :: t =>
      match skipWs t with
      | '}' :: r => some (PyValue.dict [], r)
      | t1 =>
        match parseJObjItems f t1 with
        | some (ps, r) => some (PyValue.dict (pairsToDict ps), r)
        | Option.none => Option.none
    | '[' :: t =>
      match skipWs t with
      | ']' :: r => some (PyValue.list [], r)
      | t1 =>
        match parseJArrayItems f t1 with
        | some (xs, r) => some (PyValue.list xs, r)
        | Option.none => Option.none
    | _ =>
      if (strChars "null").isPrefixOf l then some (PyValue.none, l.drop 4)
      else if (strChars "true").isPrefixOf l then some (PyValue.bool true, l.drop 4)
      else if (strChars "false").isPrefixOf l then some (PyValue.bool false, l.drop 5)
      else
        match parseNumber l with
        | some r => some r
        | Option.none =>
          if (strChars "NaN").isPrefixOf l then some (PyValue.nan, l.drop 3)
          else if (strChars "Infinity").isPrefixOf l then some (PyValue.inf false, l.drop 8)
          else if (strChars "-Infinity").isPrefixOf l then some (PyValue.inf true, l.drop 9)
          else Option.none

/-- Parse the members of a JSON object, positioned at a key (not `}`). -/
def parseJObjItems : Nat → List Char → Option (List (List Char × PyValue) × List Char)
  | 0, _ => Option.none
  | f + 1, l =>
    match l with
    | '"' :: t =>
      match parseJString t with
      | some (k, r1) =>
        match skipWs r1 with
        | ':' :: r2 =>
          match parseJValue f (skipWs r2) with
          | some (v, r3) =>
            match skipWs r3 with
            | ',' :: r4 =>
              match parseJObjItems f (skipWs r4) with
              | some (ps, r5) => some ((k, v) :: ps, r5)
              | Option.none => Option.none
            | '}' :: r4 => some ([(k, v)], r4)
            | _ => Option.none
          | Option.none => Option.none
        | _ => Option.none
      | Option.none => Option.none
    | _ => Option.none

/-- Parse the elements of a JSON array, positioned at a value (not `]`). -/
def parseJArrayItems : Nat → List Char → Option (List PyValue × List Char)
  | 0, _ => Option.none
  | f + 1, l =>
    match parseJValue f l with
    | some (v, r1) =>
      match skipWs r1 with
      | ',' :: r2 =>
        match parseJArrayItems f (skipWs r2) with
        | some (xs, r3) => some (v :: xs, r3)
        | Option.none => Option.none
      | ']' :: r2 => some ([v], r2)
      | _ => Option.none
    | Option.none => Option.none

end

/-- Python `json.loads`: parse one JSON document with optional surrounding
whitespace; anything left over is an error (`None` models the raised
`JSONDecodeError`). -/
def jsonLoads (l : List Char) : Option PyValue :=
  match parseJValue (2 * l.length + 2) (skipWs l) with
  | some (v, r) => if skipWs r = [] then some v else Option.none
  | Option.none => Option.none

/-- The event dict built by `_parse_sse_event`. It only ever holds the keys
`"event"`, `"id"`, `"retry"` (string values) and `"data"` (a decoded or raw
value), so it is embedded as a structure with one optional field per key. -/
structure SseEvent where
  event : Option (List Char)
  id : Option (List Char)
  retry : Option (List Char)
  data : Option PyValue

/-- The loop state of `_parse_sse_event`: the `event` dict restricted to the
keys set inside the loop, plus the accumulated `data_lines`. -/
structure EventAcc where
  event : Option (List Char)
  id : Option (List Char)
  retry : Option (List Char)
  dataLines : List (List Char)

/-- The empty accumulator (`event = {}`, `data_lines = []`). -/
def accInit : EventAcc := ⟨Option.none, Option.none, Option.none, []⟩

/-- One iteration of the `for line in event_str.split("\n")` loop:
strip the line, skip if blank, then dispatch on the field name
(`data:` / `event:` / `id:` / `retry:` / comment / unprefixed data). -/
def lineStep (a : EventAcc) (raw : List Char) : EventAcc :=
  let line := pyStrip raw
  if line = [] then a
  else if (strChars "data:").isPrefixOf line then
    { a with dataLines := a.dataLines ++ [pyStrip (line.drop 5)] }
  else if (strChars "event:").isPrefixOf line then
    { a with event := some (pyStrip (line.drop 6)) }
  else if (strChars "id:").isPrefixOf line then
    { a with id := some (pyStrip (line.drop 3)) }
  else if (strChars "retry:").isPrefixOf line then
    { a with retry := some (pyStrip (line.drop 6)) }
  else if line.head? = some ':' then a
  else { a with dataLines := a.dataLines ++ [line] }

/-- The accumulator after the whole line loop of `_parse_sse_event`. -/
def accOf (s : List Char) : EventAcc := (pyLines s).foldl lineStep accInit

/-- `return event if event else None`: the dict is empty iff no key was ever
set, i.e. no field line and no data line was recognized. -/
def EventAcc.isEmptyAcc (a : EventAcc) : Bool :=
  a.event.isNone && a.id.isNone && a.retry.isNone && a.dataLines.isEmpty

/-- `"\n".join(data_lines)`. -/
def joinNL (lines : List (List Char)) : List Char := List.intercalate ['\n'] lines

/-- `event["data"]`: the joined data lines, JSON-decoded if possible, kept
as the raw joined string otherwise. -/
def dataValue (lines : List (List Char)) : PyValue :=
  match jsonLoads (joinNL lines) with
  | some v => v
  | Option.none => PyValue.str (joinNL lines)

/-- Build the returned event dict from the accumulator. -/
def buildEvent (a : EventAcc) : SseEvent :=
  { event := a.event, id := a.id, retry := a.retry,
    data := if a.dataLines.isEmpty then Option.none else some (dataValue a.dataLines) }

/-- `_parse_sse_event`: `None` for a blank block and for a block in which
no field was recognized; otherwise the built event. -/
def parseSseEvent (s : List Char) : Option SseEvent :=
  if pyStrip s = [] then Option.none
  else if (accOf s).isEmptyAcc then Option.none
  else some (buildEvent (accOf s))

/-- The final-remainder step of `_handle_sse_stream`: after the body is
exhausted, `if buffer.strip(): ...` parse the remainder and emit the event
if one was produced. -/
def finishEvents (buf : List Char) : List SseEvent :=
  if pyStrip buf ≠ [] then (parseSseEvent buf).toList else []

/-- One chunk iteration of `_handle_sse_stream`: decode the chunk with
`errors="ignore"`, append to the buffer, and extract complete blocks. -/
def sseFeed (buf : List Char) (chunk : List Nat) : List (List Char) × List Char :=
  drain (buf ++ decodeUtf8Ignore chunk)

/-- The chunk loop over already-decoded text chunks: returns all extracted
blocks (in order) and the final buffer. -/
def runText (buf : List Char) : List (List Char) → List (List Char) × List Char
  | [] => ([], buf)
  | c :: rest =>
    let p := drain (buf ++ c)
    let q := runText p.2 rest
    (p.1 ++ q.1, q.2)

/-- The chunk loop of `_handle_sse_stream` over byte chunks. -/
def runBytes (buf : List Char) : List (List Nat) → List (List Char) × List Char
  | [] => ([], buf)
  | c :: rest =>
    let p := sseFeed buf c
    let q := runBytes p.2 rest
    (p.1 ++ q.1, q.2)

/-- All events produced by `_handle_sse_stream` (with the connection open
throughout) from a sequence of text chunks: the events parsed from each
complete block, then the final-remainder event if any. -/
def processStreamText (chunks : List (List Char)) : List SseEvent :=
  let p := runText [] chunks
  p.1.filterMap parseSseEvent ++ finishEvents p.2

/-- All events produced by `_handle_sse_stream` from the received byte
chunks. -/
def processStreamBytes (chunks : List (List Nat)) : List SseEvent :=
  let p := runBytes [] chunks
  p.1.filterMap parseSseEvent ++ finishEvents p.2

/-- A frame sent over the WebSocket connection: `ws.send_json({"error": True,
"status": s, "message": m})` (status absent for transport errors),
`ws.send_json(event_data)` for a parsed stream event, or `ws.send_str(body)`
for a plain (non-stream) response body. -/
inductive WsFrame where
  | errorFrame (status : Option Nat) (message : List Char)
  | eventFrame (e : SseEvent)
  | textFrame (s : List Char)

/-- An observable action of the stream-forwarding loop: reading `ws.closed`
at the top of a chunk iteration, or performing a send. -/
inductive WsAct where
  | observedClosed (b : Bool)
  | sentFrame (f : WsFrame)

/-- Is this action a send? -/
def WsAct.isSent : WsAct → Bool
  | .sentFrame _ => true
  | _ => false

/-- The final-remainder frames of `_handle_sse_stream`. -/
def finishFrames (buf : List Char) : List WsFrame :=
  (finishEvents buf).map WsFrame.eventFrame

/-- Trace semantics of `_handle_sse_stream`: `closedAt i` is the value of
`ws.closed` observed at the top of the `i`-th chunk iteration (the only
points where the source reads it). Each iteration checks the flag, breaks
if closed, else appends the decoded chunk and sends one frame per parsed
complete event; after the loop (by break or exhaustion) the final-remainder
frames are sent unconditionally. -/
def streamTrace (closedAt : Nat → Bool) : Nat → List Char → List (List Nat) → List WsAct
  | _, buf, [] => (finishFrames buf).map WsAct.sentFrame
  | i, buf, chunk :: rest =>
    WsAct.observedClosed (closedAt i) ::
      if closedAt i then (finishFrames buf).map WsAct.sentFrame
      else
        (((sseFeed buf chunk).1.filterMap parseSseEvent).map fun e =>
          WsAct.sentFrame (WsFrame.eventFrame e)) ++
          streamTrace closedAt (i + 1) (sseFeed buf chunk).2 rest

/-- The suffix of a trace strictly after the first observation that the
connection is closed (`[]` if closure is never observed). -/
def afterFirstClose : List WsAct → List WsAct
  | [] => []
  | a :: t =>
    match a with
    | WsAct.observedClosed b => if b then t else afterFirstClose t
    | WsAct.sentFrame _ => afterFirstClose t

/-- The frames sent in a trace, in order. -/
def sentFrames (t : List WsAct) : List WsFrame :=
  t.filterMap fun a =>
    match a with
    | WsAct.sentFrame f => some f
    | _ => Option.none

/-- Python `needle in haystack` substring test on char lists. -/
def containsSeq (pat : List Char) : List Char → Bool
  | [] => pat.isPrefixOf []
  | c :: t => pat.isPrefixOf (c :: t) || containsSeq pat t

/-- The upstream HTTP response: status code, `Content-Type` header value,
and the body as the byte chunks yielded by `response.content.iter_any()`.
`response.text()` is the decoded full body. -/
structure UpstreamResponse where
  status : Nat
  contentType : List Char
  chunks : List (List Nat)

/-- `await response.text()`: the whole body decoded as text. -/
def UpstreamResponse.text (r : UpstreamResponse) : List Char :=
  decodeUtf8Ignore r.chunks.flatten

/-- The request body chosen by `_forward_to_sse`: `session.post(...,
json=payload if isinstance(payload, dict) else None,
data=payload if isinstance(payload, str) else None)`. With both arguments
`None` the POST has an empty body. -/
inductive ReqBody where
  | jsonBody (v : PyValue)
  | textBody (s : List Char)
  | emptyBody

/-- `payload`: `json.loads(data)`, falling back to the raw string on
`JSONDecodeError`. -/
def requestPayload (data : List Char) : PyValue :=
  match jsonLoads data with
  | some v => v
  | Option.none => PyValue.str data

/-- The body of the outbound POST for inbound message `data` (dict payload →
JSON body, str payload → text body, anything else → both arguments `None`,
i.e. empty body). -/
def requestBody (data : List Char) : ReqBody :=
  match requestPayload data with
  | PyValue.dict xs => ReqBody.jsonBody (PyValue.dict xs)
  | PyValue.str s => ReqBody.textBody s
  | _ => ReqBody.emptyBody

/-- The frames `_forward_to_sse` sends for response `r` (after the POST):
non-200 → one error frame with the status and body text, then return;
`text/event-stream` content type → the stream-forwarding loop; otherwise
one text frame with the whole body. -/
def forwardFrames (closedAt : Nat → Bool) (r : UpstreamResponse) : List WsFrame :=
  if r.status ≠ 200 then [WsFrame.errorFrame (some r.status) r.text]
  else if containsSeq (strChars "text/event-stream") r.contentType then
    sentFrames (streamTrace closedAt 0 [] r.chunks)
  else [WsFrame.textFrame r.text]

theorem pyStrip_eq_nil_iff {l : List Char} :
    pyStrip l = [] ↔ ∀ c ∈ l, isPySpace c = true := by
  unfold pyStrip
  rw [List.reverse_eq_nil_iff, List.dropWhile_eq_nil_iff]
  constructor
  · intro h c hc
    rw [← List.takeWhile_append_dropWhile (p := isPySpace) (l := l)] at hc
    rcases List.mem_append.mp hc with h1 | h1
    · exact List.mem_takeWhile_imp h1
    · exact h c (List.mem_reverse.mpr h1)
  · intro h c hc
    exact h c ((List.dropWhile_sublist _).mem (List.mem_reverse.mp hc))

theorem pyStrip_append_ws {c : Char} (hc : isPySpace c = true) (l : List Char) :
    pyStrip (l ++ [c]) = pyStrip l := by
  unfold pyStrip
  rw [List.dropWhile_append]
  by_cases h : (l.dropWhile isPySpace).isEmpty
  · rw [if_pos h]
    have h1 : List.dropWhile isPySpace [c] = [] := by
      simp [List.dropWhile, hc]
    have h2 : l.dropWhile isPySpace = [] := by
      cases hem : l.dropWhile isPySpace with
      | nil => rfl
      | cons x t => rw [hem] at h; simp at h
    rw [h1, h2]
  · rw [if_neg h]
    rw [List.reverse_append]
    simp only [List.reverse_cons, List.reverse_nil, List.nil_append, List.singleton_append]
    rw [List.dropWhile_cons, if_pos hc]

theorem pyLines_ne_nil (s : List Char) : pyLines s ≠ [] := by
  cases s with
  | nil => simp [pyLines]
  | cons c t =>
    rw [pyLines]
    split
    · simp
    · split <;> simp

theorem mem_of_mem_pyLines :
    ∀ {s l : List Char} {c : Char}, l ∈ pyLines s → c ∈ l → c ∈ s := by
  intro s
  induction s with
  | nil =>
    intro l c hl hc
    simp [pyLines] at hl
    subst hl
    simp at hc
  | cons a t ih =>
    intro l c hl hc
    rw [pyLines] at hl
    by_cases ha : a = '\n'
    · rw [if_pos ha] at hl
      rcases List.mem_cons.mp hl with h | h
      · subst h; simp at hc
      · exact List.mem_cons_of_mem a (ih h hc)
    · rw [if_neg ha] at hl
      cases hp : pyLines t with
      | nil => exact absurd hp (pyLines_ne_nil t)
      | cons l0 ls =>
        rw [hp] at hl
        rcases List.mem_cons.mp hl with h | h
        · subst h
          rcases List.mem_cons.mp hc with h2 | h2
          · rw [h2]; exact List.mem_cons_self a t
          · exact List.mem_cons_of_mem a (ih (hp ▸ List.mem_cons_self l0 ls) h2)
        · exact List.mem_cons_of_mem a (ih (hp ▸ List.mem_cons_of_mem l0 h) hc)

theorem lineStep_of_strip_nil {a : EventAcc} {raw : List Char}
    (h : pyStrip raw = []) : lineStep a raw = a := by
  simp [lineStep, h]

theorem lineStep_congr {r1 r2 : List Char} (a : EventAcc)
    (h : pyStrip r1 = pyStrip r2) : lineStep a r1 = lineStep a r2 := by
  unfold lineStep
  rw [h]

theorem lineStep_comment {a : EventAcc} {raw : List Char}
    (h : (pyStrip raw).head? = some ':') : lineStep a raw = a := by
  cases hline : pyStrip raw with
  | nil => rw [hline] at h; simp at h
  | cons c t =>
    rw [hline] at h
    simp at h
    subst h
    unfold lineStep
    rw [hline]
    have hd : strChars "data:" = ['d', 'a', 't', 'a', ':'] := rfl
    have he : strChars "event:" = ['e', 'v', 'e', 'n', 't', ':'] := rfl
    have hi : strChars "id:" = ['i', 'd', ':'] := rfl
    have hr : strChars "retry:" = ['r', 'e', 't', 'r', 'y', ':'] := rfl
    rw [hd, he, hi, hr]
    simp [List.isPrefixOf]

theorem foldl_lineStep_fix {L : List (List Char)} {a : EventAcc}
    (h : ∀ raw ∈ L, lineStep a raw = a) : L.foldl lineStep a = a := by
  induction L with
  | nil => rfl
  | cons raw L ih =>
    rw [List.foldl_cons, h raw (List.mem_cons_self raw L)]
    exact ih fun r hr => h r (List.mem_cons_of_mem raw hr)

theorem accOf_all_ws {s : List Char} (h : ∀ c ∈ s, isPySpace c = true) :
    accOf s = accInit := by
  unfold accOf
  apply foldl_lineStep_fix
  intro raw hraw
  apply lineStep_of_strip_nil
  exact pyStrip_eq_nil_iff.mpr fun c hc => h c (mem_of_mem_pyLines hraw hc)

theorem foldl_lineStep_congr :
    ∀ {L1 L2 : List (List Char)},
      List.Forall₂ (fun l1 l2 => pyStrip l1 = pyStrip l2) L1 L2 →
      ∀ a, L1.foldl lineStep a = L2.foldl lineStep a := by
  intro L1 L2 h
  induction h with
  | nil => intro a; rfl
  | cons hrel _ ih =>
    intro a
    rw [List.foldl_cons, List.foldl_cons, lineStep_congr a hrel]
    exact ih _

/-- Rewrite a text with LF line endings to the equivalent CRLF text:
every `\n` becomes `\r\n`. -/
def crlfify : List Char → List Char
  | [] => []
  | c :: t => if c = '\n' then '\r' :: '\n' :: crlfify t else c :: crlfify t

theorem mem_crlfify_of_mem {s : List Char} {c : Char} (h : c ∈ s) : c ∈ crlfify s := by
  induction s with
  | nil => simp at h
  | cons a t ih =>
    rw [crlfify]
    rcases List.mem_cons.mp h with h1 | h1
    · subst h1
      split
      · rename_i ha; rw [ha]; simp
      · simp
    · split <;> simp [ih h1]

theorem mem_of_mem_crlfify {s : List Char} {c : Char} (h : c ∈ crlfify s) :
    c = '\r' ∨ c ∈ s := by
  induction s with
  | nil => simp [crlfify] at h
  | cons a t ih =>
    rw [crlfify] at h
    split at h
    · rename_i ha
      rcases List.mem_cons.mp h with h1 | h1
      · exact Or.inl h1
      · rcases List.mem_cons.mp h1 with h2 | h2
        · subst h2; rw [ha]; simp
        · rcases ih h2 with h3 | h3
          · exact Or.inl h3
          · exact Or.inr (List.mem_cons_of_mem a h3)
    · rcases List.mem_cons.mp h with h1 | h1
      · rw [h1]; exact Or.inr (List.mem_cons_self a t)
      · rcases ih h1 with h3 | h3
        · exact Or.inl h3
        · exact Or.inr (List.mem_cons_of_mem a h3)

theorem pyStrip_crlfify_nil_iff (s : List Char) :
    pyStrip (crlfify s) = [] ↔ pyStrip s = [] := by
  rw [pyStrip_eq_nil_iff, pyStrip_eq_nil_iff]
  constructor
  · intro h c hc
    exact h c (mem_crlfify_of_mem hc)
  · intro h c hc
    rcases mem_of_mem_crlfify hc with h1 | h1
    · subst h1; rfl
    · exact h c h1

theorem pyLines_crlfify (s : List Char) :
    List.Forall₂ (fun l1 l2 => l1 = l2 ∨ l1 = l2 ++ ['\r'])
      (pyLines (crlfify s)) (pyLines s) := by
  induction s with
  | nil => exact List.Forall₂.cons (Or.inl rfl) List.Forall₂.nil
  | cons a t ih =>
    by_cases ha : a = '\n'
    · subst ha
      have h1 : crlfify ('\n' :: t) = '\r' :: '\n' :: crlfify t := by
        rw [crlfify, if_pos rfl]
      have h2 : pyLines ('\r' :: '\n' :: crlfify t) = ['\r'] :: pyLines (crlfify t) := by
        rw [pyLines, if_neg (by decide), pyLines, if_pos rfl]
      have h3 : pyLines ('\n' :: t) = [] :: pyLines t := by
        rw [pyLines, if_pos rfl]
      rw [h1, h2, h3]
      exact List.Forall₂.cons (Or.inr rfl) ih
    · have h1 : crlfify (a :: t) = a :: crlfify t := by
        rw [crlfify, if_neg ha]
      rw [h1]
      cases hp1 : pyLines (crlfify t) with
      | nil => exact absurd hp1 (pyLines_ne_nil _)
      | cons l1 ls1 =>
        cases hp2 : pyLines t with
        | nil => exact absurd hp2 (pyLines_ne_nil _)
        | cons l2 ls2 =>
          have h2 : pyLines (a :: crlfify t) = (a :: l1) :: ls1 := by
            rw [pyLines, if_neg ha, hp1]
          have h3 : pyLines (a :: t) = (a :: l2) :: ls2 := by
            rw [pyLines, if_neg ha, hp2]
          rw [h2, h3]
          rw [hp1, hp2] at ih
          cases ih with
          | cons hrel htail =>
            refine List.Forall₂.cons ?_ htail
            rcases hrel with h4 | h4
            · exact Or.inl (by rw [h4])
            · exact Or.inr (by rw [h4]; rfl)

theorem accOf_crlfify (s : List Char) : accOf (crlfify s) = accOf s := by
  unfold accOf
  apply foldl_lineStep_congr
  refine (pyLines_crlfify s).imp ?_
  intro l1 l2 h
  rcases h with h | h
  · rw [h]
  · rw [h]
    exact pyStrip_append_ws (by decide) l2

theorem runText_eq_drain :
    ∀ (chunks : List (List Char)) (buf : List Char),
      splitFirst buf = Option.none →
      runText buf chunks = drain (buf ++ chunks.flatten) := by
  intro chunks
  induction chunks with
  | nil =>
    intro buf h
    rw [runText, List.flatten_nil, List.append_nil, drain_none h]
  | cons c rest ih =>
    intro buf h
    have hstep : runText buf (c :: rest) =
        ((drain (buf ++ c)).1 ++ (runText (drain (buf ++ c)).2 rest).1,
          (runText (drain (buf ++ c)).2 rest).2) := rfl
    rw [hstep, ih (drain (buf ++ c)).2 (splitFirst_drain_snd _)]
    rw [List.flatten_cons, ← List.append_assoc, drain_append (buf ++ c) rest.flatten]

theorem processStreamText_flatten (chunks : List (List Char)) :
    processStreamText chunks = processStreamText [chunks.flatten] := by
  unfold processStreamText
  rw [runText_eq_drain chunks [] rfl, runText_eq_drain [chunks.flatten] [] rfl]
  rw [List.flatten_cons, List.flatten_nil, List.append_nil]

theorem runBytes_eq_runText :
    ∀ (chunks : List (List Nat)) (buf : List Char),
      runBytes buf chunks = runText buf (chunks.map decodeUtf8Ignore) := by
  intro chunks
  induction chunks with
  | nil => intro buf; rfl
  | cons c rest ih =>
    intro buf
    rw [runBytes, List.map_cons, runText]
    simp only [sseFeed]
    rw [ih]

theorem processStreamBytes_eq_text (chunks : List (List Nat)) :
    processStreamBytes chunks = processStreamText (chunks.map decodeUtf8Ignore) := by
  unfold processStreamBytes processStreamText
  rw [runBytes_eq_runText]

theorem afterFirstClose_append_of_sent :
    ∀ {l : List WsAct}, (∀ a ∈ l, WsAct.isSent a = true) →
      ∀ t, afterFirstClose (l ++ t) = afterFirstClose t := by
  intro l
  induction l with
  | nil => intro _ t; rfl
  | cons a l ih =>
    intro h t
    rw [List.cons_append, afterFirstClose.eq_def]
    cases a with
    | observedClosed b =>
      have := h _ (List.mem_cons_self _ l)
      simp [WsAct.isSent] at this
    | sentFrame f =>
      exact ih (fun x hx => h x (List.mem_cons_of_mem _ hx)) t

theorem afterFirstClose_of_sent {l : List WsAct}
    (h : ∀ a ∈ l, WsAct.isSent a = true) : afterFirstClose l = [] := by
  have := afterFirstClose_append_of_sent h []
  rw [List.append_nil] at this
  rw [this]
  rfl

theorem mem_map_sent_isSent {fs : List WsFrame} {a : WsAct}
    (h : a ∈ fs.map WsAct.sentFrame) : WsAct.isSent a = true := by
  rcases List.mem_map.mp h with ⟨f, _, hf⟩
  rw [← hf]
  rfl

theorem finishFrames_length_le_one (buf : List Char) :
    (finishFrames buf).length ≤ 1 := by
  unfold finishFrames finishEvents
  split
  · cases parseSseEvent buf <;> simp
  · simp

/-- C1 (counterexample): chunk-boundary invariance fails at the byte level.
The body `b"data: \xc3\xa9\n\n"` (`"data: é\n\n"` in UTF-8) split after the
lead byte `0xC3` yields one event with data `""` — both halves of the
multi-byte character are dropped by the per-chunk `errors="ignore"` decode —
while the unsplit body yields one event with data `"é"`. -/
theorem chunk_split_utf8_counterexample :
    processStreamBytes [[0x64, 0x61, 0x74, 0x61, 0x3a, 0x20, 0xC3], [0xA9, 0x0A, 0x0A]] =
      [⟨Option.none, Option.none, Option.none, some (PyValue.str [])⟩] ∧
    processStreamBytes [[0x64, 0x61, 0x74, 0x61, 0x3a, 0x20, 0xC3] ++ [0xA9, 0x0A, 0x0A]] =
      [⟨Option.none, Option.none, Option.none, some (PyValue.str ['é'])⟩] ∧
    processStreamBytes [[0x64, 0x61, 0x74, 0x61, 0x3a, 0x20, 0xC3], [0xA9, 0x0A, 0x0A]] ≠
      processStreamBytes [[0x64, 0x61, 0x74, 0x61, 0x3a, 0x20, 0xC3] ++ [0xA9, 0x0A, 0x0A]] := by
  refine ⟨rfl, rfl, ?_⟩
  intro h
  have h2 : ([⟨Option.none, Option.none, Option.none, some (PyValue.str [])⟩] : List SseEvent) =
      [⟨Option.none, Option.none, Option.none, some (PyValue.str ['é'])⟩] := h
  simp at h2

/-- C1 (amended): chunk-boundary invariance holds whenever every chunk
boundary falls between complete UTF-8 sequences (equivalently, for every
split of the decoded text): feeding the chunks one by one and then
processing the final remainder produces the same ordered list of events as
feeding the entire body as a single chunk. -/
theorem chunk_invariance_char_boundaries (tchunks : List (List Char)) :
    processStreamBytes (tchunks.map utf8Encode) =
      processStreamBytes [utf8Encode tchunks.flatten] := by
  rw [processStreamBytes_eq_text, processStreamBytes_eq_text]
  have h1 : (tchunks.map utf8Encode).map decodeUtf8Ignore = tchunks := by
    rw [List.map_map]
    simp [Function.comp_def, decode_encode]
  have h2 : ([utf8Encode tchunks.flatten]).map decodeUtf8Ignore = [tchunks.flatten] := by
    simp [decode_encode]
  rw [h1, h2]
  exact processStreamText_flatten tchunks

/-- C2 (counterexample): `"[1]"` JSON-decodes successfully, but the decoded
value is not sent as the request's JSON body — `json=` is only set for dict
payloads, so the POST is issued with an empty body. -/
theorem json_array_body_counterexample :
    jsonLoads (strChars "[1]") = some (PyValue.list [PyValue.int 1]) ∧
    requestBody (strChars "[1]") = ReqBody.emptyBody ∧
    requestBody (strChars "[1]") ≠ ReqBody.jsonBody (PyValue.list [PyValue.int 1]) :=
  ⟨rfl, rfl, fun h =>
    ReqBody.noConfusion
      (show ReqBody.emptyBody = ReqBody.jsonBody (PyValue.list [PyValue.int 1]) from h)⟩

/-- C2 (amended): if the inbound text decodes to a JSON object (dict), the
decoded dict is the request's JSON body; if decoding fails, the raw string
is the text body; if it decodes to a JSON string, the decoded string is the
text body; any other successfully decoded value yields an empty request
body. At most one body-encoding mode is used per request. -/
theorem request_body_modes (data : List Char) :
    (jsonLoads data = Option.none → requestBody data = ReqBody.textBody data) ∧
    (∀ xs, jsonLoads data = some (PyValue.dict xs) →
      requestBody data = ReqBody.jsonBody (PyValue.dict xs)) ∧
    (∀ s, jsonLoads data = some (PyValue.str s) →
      requestBody data = ReqBody.textBody s) ∧
    (∀ v, jsonLoads data = some v → v.isDict = false → v.isStr = false →
      requestBody data = ReqBody.emptyBody) := by
  refine ⟨?_, ?_, ?_, ?_⟩
  · intro h
    unfold requestBody requestPayload
    rw [h]
  · intro xs h
    unfold requestBody requestPayload
    rw [h]
  · intro s h
    unfold requestBody requestPayload
    rw [h]
  · intro v h hd hs
    unfold requestBody requestPayload
    rw [h]
    cases v <;> try rfl
    · exact absurd hs (by simp [PyValue.isStr])
    · exact absurd hd (by simp [PyValue.isDict])

/-- C2 (witness): an inbound message that is not valid JSON is sent as the
raw text body. -/
theorem request_body_modes_witness :
    requestBody (strChars "xyz") = ReqBody.textBody (strChars "xyz") :=
  (request_body_modes (strChars "xyz")).1 rfl

/-- C3: for every upstream response with a non-200 status, `_forward_to_sse`
sends exactly one error frame `{error: true, status, message: body-text}`
and nothing else — no stream parsing, no further processing. -/
theorem non_200_error_frame (closedAt : Nat → Bool) (r : UpstreamResponse)
    (h : r.status ≠ 200) :
    forwardFrames closedAt r = [WsFrame.errorFrame (some r.status) r.text] := by
  unfold forwardFrames
  rw [if_pos h]

/-- C3 (witness): a status-500 response with body `"boom"` yields exactly
the frame `{error: true, status: 500, message: "boom"}`. -/
theorem non_200_error_frame_witness :
    forwardFrames (fun _ => false)
      ⟨500, strChars "application/json", [[0x62, 0x6f, 0x6f, 0x6d]]⟩ =
      [WsFrame.errorFrame (some 500) (strChars "boom")] := by
  have h := non_200_error_frame (fun _ => false)
    ⟨500, strChars "application/json", [[0x62, 0x6f, 0x6f, 0x6d]]⟩ (by decide)
  rw [h]
  rfl

/-- C8 (counterexample): invalid bytes are dropped, not replaced. Feeding
the single invalid byte `0xFF` appends nothing to the buffer, whereas the
spec's replacement decoding yields the replacement character U+FFFD. -/
theorem utf8_ignore_not_replace_counterexample :
    sseFeed [] [0xFF] = ([], []) ∧
    specReplaceDecode [0xFF] = ['�'] ∧
    decodeUtf8Ignore [0xFF] ≠ specReplaceDecode [0xFF] :=
  ⟨rfl, rfl, fun h => List.noConfusion (show ([] : List Char) = ['�'] from h)⟩

/-- C8 (amended): every received byte chunk is decoded as UTF-8 with
ill-formed sequences dropped (never raising), and the decoded text is
appended to the internal buffer: feeding a validly encoded chunk appends
exactly its text, and a stray invalid byte contributes nothing. -/
theorem utf8_decode_appends_valid (buf s : List Char) :
    sseFeed buf (utf8Encode s) = drain (buf ++ s) ∧
    decodeUtf8Ignore (0xFF :: utf8Encode s) = s := by
  constructor
  · unfold sseFeed
    rw [decode_encode]
  · rw [decodeUtf8Ignore_cons]
    have hstep : utf8Step (0xFF :: utf8Encode s) = (Option.none, 1) := by
      simp only [utf8Step]
      rw [if_neg (by omega), if_neg (by omega), if_neg (by omega), if_neg (by omega)]
    rw [hstep]
    simp only [List.drop_succ_cons, List.drop_zero]
    exact decode_encode s

/-- C10: an inbound message that decodes to a JSON value that is neither a
dict nor a string (array, number, boolean, null, ...) results in a POST with
an empty body: `json=` is used only for dict payloads and `data=` only for
string payloads. -/
theorem non_dict_non_str_empty_body (data : List Char) (v : PyValue)
    (h : jsonLoads data = some v) (hd : v.isDict = false) (hs : v.isStr = false) :
    requestBody data = ReqBody.emptyBody := by
  unfold requestBody requestPayload
  rw [h]
  cases v <;> try rfl
  · exact absurd hs (by simp [PyValue.isStr])
  · exact absurd hd (by simp [PyValue.isDict])

/-- C10 (witness): the JSON array `[1, 2]` yields an empty request body. -/
theorem non_dict_non_str_empty_body_witness :
    requestBody (strChars "[1,2]") = ReqBody.emptyBody :=
  non_dict_non_str_empty_body (strChars "[1,2]")
    (PyValue.list [PyValue.int 1, PyValue.int 2]) rfl rfl rfl

/-- C4 (counterexample): a frame is sent after closure is observed. With the
first chunk `b"data: x"` buffered and the connection observed closed at the
second chunk, the loop breaks — but the unguarded final-remainder step still
sends the buffered event after the closed observation. -/
theorem send_after_close_counterexample :
    streamTrace (fun i => decide (1 ≤ i)) 0 []
      [[0x64, 0x61, 0x74, 0x61, 0x3a, 0x20, 0x78], [0x79]] =
      [WsAct.observedClosed false, WsAct.observedClosed true,
        WsAct.sentFrame (WsFrame.eventFrame
          ⟨Option.none, Option.none, Option.none, some (PyValue.str ['x'])⟩)] ∧
    afterFirstClose (streamTrace (fun i => decide (1 ≤ i)) 0 []
        [[0x64, 0x61, 0x74, 0x61, 0x3a, 0x20, 0x78], [0x79]]) =
      [WsAct.sentFrame (WsFrame.eventFrame
        ⟨Option.none, Option.none, Option.none, some (PyValue.str ['x'])⟩)] :=
  ⟨rfl, rfl⟩

/-- C4 (amended): the loop checks `ws.closed` once before each chunk (not
before each send, and not before the final-remainder send). After closure is
observed, no further chunk is read — everything left in the trace is sends —
and at most one frame (the final remainder) is still sent. -/
theorem close_check_per_chunk (closedAt : Nat → Bool) :
    ∀ (chunks : List (List Nat)) (i : Nat) (buf : List Char),
      (afterFirstClose (streamTrace closedAt i buf chunks)).all WsAct.isSent = true ∧
      (afterFirstClose (streamTrace closedAt i buf chunks)).length ≤ 1 := by
  intro chunks
  induction chunks with
  | nil =>
    intro i buf
    rw [streamTrace]
    rw [afterFirstClose_of_sent fun a ha => mem_map_sent_isSent ha]
    simp
  | cons c rest ih =>
    intro i buf
    rw [streamTrace]
    by_cases hc : closedAt i = true
    · rw [hc]
      rw [afterFirstClose.eq_def]
      simp only [if_true]
      constructor
      · exact List.all_eq_true.mpr fun a ha => mem_map_sent_isSent ha
      · rw [List.length_map]
        exact finishFrames_length_le_one buf
    · rw [Bool.not_eq_true] at hc
      rw [hc]
      rw [afterFirstClose.eq_def]
      simp only [Bool.false_eq_true, if_false]
      rw [afterFirstClose_append_of_sent]
      · exact ih (i + 1) (sseFeed buf c).2
      · intro a ha
        rcases List.mem_map.mp ha with ⟨e, _, he⟩
        rw [← he]
        rfl

/-- C5: if at least one data line was accumulated for a block, the produced
event's data is the newline-join of the accumulated data-line values,
JSON-decoded when the joined string parses and the raw joined string
otherwise; if none was accumulated, the event (if any) has no data.
Concretely, `"data: hello\ndata: world\n\n"` yields one event with data
`"hello\nworld"`, and `"data: {\"a\":1}\n\n"` yields one event with the
structured value `{"a": 1}`. -/
theorem data_lines_semantics :
    (∀ s : List Char,
      ((accOf s).dataLines ≠ [] →
        parseSseEvent s = some (buildEvent (accOf s)) ∧
        (buildEvent (accOf s)).data = some (dataValue (accOf s).dataLines)) ∧
      ((accOf s).dataLines = [] →
        ∀ e, parseSseEvent s = some e → e.data = Option.none)) ∧
    processStreamText [strChars "data: hello\ndata: world\n\n"] =
      [⟨Option.none, Option.none, Option.none,
        some (PyValue.str (strChars "hello\nworld"))⟩] ∧
    processStreamText [strChars "data: \x7b\"a\":1\x7d\n\n"] =
      [⟨Option.none, Option.none, Option.none,
        some (PyValue.dict [(strChars "a", PyValue.int 1)])⟩] := by
  refine ⟨?_, rfl, rfl⟩
  intro s
  constructor
  · intro hne
    have hs : ¬pyStrip s = [] := by
      intro hnil
      have hai : accOf s = accInit := accOf_all_ws (pyStrip_eq_nil_iff.mp hnil)
      rw [hai] at hne
      exact hne rfl
    have h1 : (accOf s).dataLines.isEmpty = false := by
      cases hdl : (accOf s).dataLines with
      | nil => exact absurd hdl hne
      | cons x t => rfl
    have hempty : ¬(accOf s).isEmptyAcc = true := by
      unfold EventAcc.isEmptyAcc
      rw [h1]
      simp
    constructor
    · unfold parseSseEvent
      rw [if_neg hs, if_neg hempty]
    · unfold buildEvent
      simp only
      rw [if_neg (by rw [h1]; exact Bool.false_ne_true)]
  · intro hnil e hp
    unfold parseSseEvent at hp
    by_cases hs : pyStrip s = []
    · rw [if_pos hs] at hp
      exact Option.noConfusion hp
    · rw [if_neg hs] at hp
      by_cases he : (accOf s).isEmptyAcc = true
      · rw [if_pos he] at hp
        exact Option.noConfusion hp
      · rw [if_neg he] at hp
        have hbe : buildEvent (accOf s) = e := Option.some.inj hp
        rw [← hbe]
        unfold buildEvent
        simp only
        rw [if_pos (by rw [hnil]; rfl)]

/-- C5 (witness): the block `"data: hello\ndata: world"` has accumulated
data lines, so its event carries the joined (raw) data value. -/
theorem data_lines_semantics_witness :
    parseSseEvent (strChars "data: hello\ndata: world") =
      some (buildEvent (accOf (strChars "data: hello\ndata: world"))) ∧
    (buildEvent (accOf (strChars "data: hello\ndata: world"))).data =
      some (dataValue (accOf (strChars "data: hello\ndata: world")).dataLines) :=
  (data_lines_semantics.1 (strChars "data: hello\ndata: world")).1 (by decide)

/-- C6: a block whose every line strips to blank or to a comment (first
character `':'`) sets no field, so parsing produces no event. -/
theorem comment_only_block_no_event (s : List Char)
    (h : ∀ raw ∈ pyLines s, pyStrip raw = [] ∨ (pyStrip raw).head? = some ':') :
    parseSseEvent s = Option.none := by
  have hacc : accOf s = accInit := by
    unfold accOf
    apply foldl_lineStep_fix
    intro raw hraw
    rcases h raw hraw with h1 | h1
    · exact lineStep_of_strip_nil h1
    · exact lineStep_comment h1
  unfold parseSseEvent
  by_cases hb : pyStrip s = []
  · rw [if_pos hb]
  · rw [if_neg hb, hacc]
    rfl

/-- C6 (witness): a block of only comment lines and blank lines produces no
event. -/
theorem comment_only_block_no_event_witness :
    parseSseEvent (strChars ": comment\n\n: more") = Option.none :=
  comment_only_block_no_event (strChars ": comment\n\n: more") (by decide)

/-- C7 (counterexample): a non-blank trailing remainder is not always
emitted as a final event. For the body `"data: x\n\n: c"` the remainder
`": c"` is non-blank, yet the stream produces only the one block event — the
comment-only remainder parses to nothing and no final event is sent. -/
theorem nonblank_remainder_counterexample :
    (runText [] [strChars "data: x\n\n: c"]).2 = strChars ": c" ∧
    pyStrip (strChars ": c") ≠ [] ∧
    processStreamText [strChars "data: x\n\n: c"] =
      [⟨Option.none, Option.none, Option.none, some (PyValue.str ['x'])⟩] :=
  ⟨rfl, by decide, rfl⟩

/-- C7 (amended): after the body is exhausted, a blank remainder produces no
final event, and a remainder that parses to an event (at least one field
recognized) is emitted as exactly one final event — in particular a trailing
unterminated block such as `"data: x"` is still emitted. A non-blank
remainder that parses to nothing (e.g. comments only) is dropped. -/
theorem finish_emits_parsed_event :
    (∀ buf : List Char,
      (pyStrip buf = [] → finishEvents buf = []) ∧
      (∀ e, parseSseEvent buf = some e → finishEvents buf = [e])) ∧
    processStreamText [strChars "data: x"] =
      [⟨Option.none, Option.none, Option.none, some (PyValue.str ['x'])⟩] := by
  refine ⟨?_, rfl⟩
  intro buf
  constructor
  · intro h
    unfold finishEvents
    rw [if_neg (not_not_intro h)]
  · intro e hp
    have hne : pyStrip buf ≠ [] := by
      intro h0
      unfold parseSseEvent at hp
      rw [if_pos h0] at hp
      exact Option.noConfusion hp
    unfold finishEvents
    rw [if_pos hne, hp]
    rfl

/-- C7 (witness): the unterminated trailing block `"data: y"` is emitted by
the finish step as one final event. -/
theorem finish_emits_parsed_event_witness :
    finishEvents (strChars "data: y") =
      [⟨Option.none, Option.none, Option.none, some (PyValue.str ['y'])⟩] :=
  (finish_emits_parsed_event.1 (strChars "data: y")).2
    ⟨Option.none, Option.none, Option.none, some (PyValue.str ['y'])⟩ rfl

/-- C9 (counterexample): a CRLF-terminated body does not produce the same
events as the equivalent LF body: `"\r\n\r\n"` never matches the `"\n\n"`
delimiter, so `"data: x\r\n\r\ndata: y\r\n\r\n"` stays buffered and is
parsed by the finish step as a single event with data `"x\ny"`, while the LF
body yields two events. -/
theorem crlf_body_counterexample :
    processStreamText [crlfify (strChars "data: x\n\ndata: y\n\n")] =
      [⟨Option.none, Option.none, Option.none, some (PyValue.str (strChars "x\ny"))⟩] ∧
    processStreamText [strChars "data: x\n\ndata: y\n\n"] =
      [⟨Option.none, Option.none, Option.none, some (PyValue.str ['x'])⟩,
        ⟨Option.none, Option.none, Option.none, some (PyValue.str ['y'])⟩] ∧
    processStreamText [crlfify (strChars "data: x\n\ndata: y\n\n")] ≠
      processStreamText [strChars "data: x\n\ndata: y\n\n"] := by
  refine ⟨rfl, rfl, ?_⟩
  intro h
  exact absurd (congrArg List.length h) (by decide)

/-- C9 (amended): within a single delimited block, CRLF line endings are
tolerated — each line's trailing `'\r'` is removed by the per-line strip, so
a block with every LF replaced by CRLF parses to the same event. Only the
blank-line delimiter itself must use bare LFs. -/
theorem crlf_block_invariance (s : List Char) :
    parseSseEvent (crlfify s) = parseSseEvent s := by
  unfold parseSseEvent
  rw [accOf_crlfify]
  by_cases hb : pyStrip s = []
  · rw [if_pos hb, if_pos ((pyStrip_crlfify_nil_iff s).mpr hb)]
  · rw [if_neg hb, if_neg fun hcontra => hb ((pyStrip_crlfify_nil_iff s).mp hcontra)]
